import Mathlib

set_option maxRecDepth 8000

/-! Shallow embedding of mpd-fzf (`mpd-fzf.go`) together with the Go standard
library and third-party functions it calls (`strings`, `path/filepath`,
`time.ParseDuration`, `go-runewidth`).  Go strings are modelled as
`List Char` (rune sequences); Go byte positions coincide with rune positions
on the ASCII data every concrete theorem below evaluates.  Fatal conditions
(`os.Exit`, slice-bound panics) are modelled with `Option`/`Except`. -/

/-! ## Go string helpers -/

/-- Models Go `strings.Index(line, needle)` for a one-character needle: the
index of the first occurrence, `none` standing for Go's `-1`. -/
def goIndexChar (s : List Char) (c : Char) : Option Nat :=
  match s with
  | [] => none
  | a :: rest =>
    if a = c then some 0 else (goIndexChar rest c).map (· + 1)

/-- Whether `pat` occurs in `s` at position `i`. -/
def occAt (s pat : List Char) (i : Nat) : Bool :=
  decide ((s.drop i).take pat.length = pat)

/-- Scan positions `i, i-1, ..., 0` of `s` for an occurrence of `pat`,
returning the largest position that matches. -/
def occFromTop (s pat : List Char) : Nat → Option Nat
  | 0 => if occAt s pat 0 then some 0 else none
  | i + 1 => if occAt s pat (i + 1) then some (i + 1) else occFromTop s pat i

/-- Models Go `strings.LastIndex(s, pat)`: the starting index of the last
occurrence of `pat` in `s`, or `-1` when there is none. -/
def goLastIndex (s pat : List Char) : Int :=
  match occFromTop s pat s.length with
  | some i => (i : Int)
  | none => -1

/-- Models the Go string slice expression `s[i:]`, which panics (`none`)
when `i` is out of range. -/
def goSliceFrom (s : List Char) (i : Int) : Option (List Char) :=
  if 0 ≤ i ∧ i ≤ (s.length : Int) then some (s.drop i.toNat) else none

/-- Models Go `strings.TrimPrefix(s, p)`: drop `p` from the front of `s`
when `s` starts with `p`, otherwise return `s` unchanged. -/
def goTrimHead (s p : List Char) : List Char :=
  if s.take p.length = p then s.drop p.length else s

/-- Models Go `strings.TrimSuffix(s, p)`: drop `p` from the end of `s` when
`s` ends with `p`, otherwise return `s` unchanged. -/
def goTrimTail (s p : List Char) : List Char :=
  if p.length ≤ s.length ∧ s.drop (s.length - p.length) = p then
    s.take (s.length - p.length)
  else s

/-! ## go-runewidth -/

/-- Port of go-runewidth's `RuneWidth` under the default (non-East-Asian)
condition: width 0 for control, soft hyphen and combining characters, width
2 for the wide/fullwidth ranges, width 1 otherwise.  The table is abridged
to the ranges music metadata can reach; it is exact on every character the
theorems below evaluate, and the width theorems do not depend on which
characters are wide. -/
def runeWidth (c : Char) : Nat :=
  let n := c.toNat
  if n < 0x20 then 0
  else if n < 0x7F then 1
  else if n ≤ 0x9F then 0
  else if n = 0xAD then 0
  else if 0x300 ≤ n ∧ n ≤ 0x36F then 0
  else if 0x1AB0 ≤ n ∧ n ≤ 0x1AFF then 0
  else if 0x1DC0 ≤ n ∧ n ≤ 0x1DFF then 0
  else if 0x20D0 ≤ n ∧ n ≤ 0x20FF then 0
  else if 0xFE20 ≤ n ∧ n ≤ 0xFE2F then 0
  else if 0x1100 ≤ n ∧ n ≤ 0x115F then 2
  else if 0x2E80 ≤ n ∧ n ≤ 0x303E then 2
  else if 0x3041 ≤ n ∧ n ≤ 0x33FF then 2
  else if 0x3400 ≤ n ∧ n ≤ 0x4DBF then 2
  else if 0x4E00 ≤ n ∧ n ≤ 0x9FFF then 2
  else if 0xA000 ≤ n ∧ n ≤ 0xA4CF then 2
  else if 0xAC00 ≤ n ∧ n ≤ 0xD7A3 then 2
  else if 0xF900 ≤ n ∧ n ≤ 0xFAFF then 2
  else if 0xFE30 ≤ n ∧ n ≤ 0xFE52 then 2
  else if 0xFE54 ≤ n ∧ n ≤ 0xFE66 then 2
  else if 0xFE68 ≤ n ∧ n ≤ 0xFE6B then 2
  else if 0xFF00 ≤ n ∧ n ≤ 0xFF60 then 2
  else if 0xFFE0 ≤ n ∧ n ≤ 0xFFE6 then 2
  else if 0x1F300 ≤ n ∧ n ≤ 0x1F64F then 2
  else if 0x20000 ≤ n ∧ n ≤ 0x2FFFD then 2
  else if 0x30000 ≤ n ∧ n ≤ 0x3FFFD then 2
  else 1

/-- Models go-runewidth `StringWidth`: the sum of the rune widths. -/
def strWidth (s : List Char) : Nat :=
  (s.map runeWidth).sum

/-- The rune-consuming loop inside go-runewidth `Truncate`: keep the longest
rune prefix whose accumulated width stays within `limit`, starting from an
already-consumed width of `w0`. -/
def truncRunes (limit : Int) (w0 : Nat) : List Char → List Char
  | [] => []
  | c :: rest =>
    if ((w0 + runeWidth c : Nat) : Int) > limit then []
    else c :: truncRunes limit (w0 + runeWidth c) rest

/-- Models go-runewidth `Truncate(s, w, tl)`: return `s` unchanged when it
already fits in `w` columns, otherwise the longest rune prefix fitting in
`w` minus the tail's width, with the tail appended. -/
def goTruncate (s : List Char) (w : Int) (tl : List Char) : List Char :=
  if (strWidth s : Int) ≤ w then s
  else truncRunes (w - (strWidth tl : Int)) 0 s ++ tl

/-- Models go-runewidth `FillRight(s, w)`: pad with spaces on the right up
to `w` columns; strings at least `w` wide are returned unchanged. -/
def goFillRight (s : List Char) (w : Int) : List Char :=
  let count : Int := w - (strWidth s : Int)
  if count > 0 then s ++ List.replicate count.toNat ' ' else s

/-- Models `truncateAndPad` (mpd-fzf.go:91): panics (`none`) on a negative
maximum width, otherwise truncates with the given tail and pads right. -/
def truncateAndPad (s : List Char) (maxWidth : Int) (tl : List Char) :
    Option (List Char) :=
  if maxWidth < 0 then none
  else some (goFillRight (goTruncate s maxWidth tl) maxWidth)

/-! ## time.ParseDuration -/

/-- True for ASCII decimal digits, as tested throughout Go's duration
parser. -/
def isGoDigit (c : Char) : Bool :=
  decide ('0' ≤ c ∧ c ≤ '9')

/-- Loop body of Go `time.leadingInt`: consume leading digits into a uint64
accumulator, failing (`none`) on overflow exactly where Go does. -/
def leadingIntAux (x : Nat) : List Char → Option (Nat × List Char)
  | [] => some (x, [])
  | c :: rest =>
    if ¬ isGoDigit c then some (x, c :: rest)
    else if x > 2 ^ 63 / 10 then none
    else
      let x' := x * 10 + (c.toNat - '0'.toNat)
      if x' > 2 ^ 63 then none else leadingIntAux x' rest

/-- Models Go `time.leadingInt`. -/
def leadingInt (s : List Char) : Option (Nat × List Char) :=
  leadingIntAux 0 s

/-- Loop body of Go `time.leadingFraction`: consume digits after the decimal
point, keeping value and scale, saturating (without error) on overflow.  Go
tracks `scale` in a float64; every value it can take here (a power of ten up
to 10^19) is exactly representable, so a `Nat` scale is faithful. -/
def leadingFracAux (x scale : Nat) (overflow : Bool) :
    List Char → Nat × Nat × List Char
  | [] => (x, scale, [])
  | c :: rest =>
    if ¬ isGoDigit c then (x, scale, c :: rest)
    else if overflow then leadingFracAux x scale true rest
    else if x > (2 ^ 63 - 1) / 10 then leadingFracAux x scale true rest
    else
      let y := x * 10 + (c.toNat - '0'.toNat)
      if y > 2 ^ 63 then leadingFracAux x scale true rest
      else leadingFracAux y (scale * 10) false rest

/-- Models Go `time.leadingFraction`. -/
def leadingFrac (s : List Char) : Nat × Nat × List Char :=
  leadingFracAux 0 1 false s

/-- Go `time.unitMap`: nanoseconds per unit name. -/
def unitLookup (u : List Char) : Option Nat :=
  if u = "ns".toList then some 1
  else if u = "us".toList then some 1000
  else if u = "µs".toList then some 1000
  else if u = "μs".toList then some 1000
  else if u = "ms".toList then some 1000000
  else if u = "s".toList then some 1000000000
  else if u = "m".toList then some 60000000000
  else if u = "h".toList then some 3600000000000
  else none

/-- One `number [fraction] unit` term of `time.ParseDuration`, iterated over
the remaining input; `fuel` only bounds the recursion (each iteration
consumes at least the unit character, so `s.length + 1` is always enough).
Go computes the fractional contribution as
`uint64(float64(f) * (float64(unit) / scale))`; here it is the exact
truncated quotient `f * unit / scale`, which agrees with Go on every input
whose value the theorems below inspect (no theorem evaluates a fractional
duration). -/
def parseDurTerms : Nat → Nat → List Char → Option Nat
  | 0, _, _ => none
  | _ + 1, d, [] => some d
  | fuel + 1, d, c :: s0 =>
    if ¬ (c = '.' ∨ isGoDigit c) then none
    else
      match leadingInt (c :: s0) with
      | none => none
      | some (v, s1) =>
        let pre : Bool := decide ((c :: s0).length ≠ s1.length)
        let fps :=
          match s1 with
          | '.' :: s1' =>
            let r := leadingFrac s1'
            (r.1, r.2.1, r.2.2, decide (s1'.length ≠ r.2.2.length))
          | _ => (0, 1, s1, false)
        let f := fps.1
        let scale := fps.2.1
        let s2 := fps.2.2.1
        let post := fps.2.2.2
        if ¬ pre ∧ ¬ post then none
        else
          let i := s2.takeWhile (fun ch => ¬ (ch = '.' ∨ isGoDigit ch)) |>.length
          if i = 0 then none
          else
            match unitLookup (s2.take i) with
            | none => none
            | some unit =>
              if v > 2 ^ 63 / unit then none
              else
                let v := v * unit
                let bad : Bool := f > 0 ∧ v + f * unit / scale > 2 ^ 63
                let v := if f > 0 then v + f * unit / scale else v
                if bad then none
                else if d + v > 2 ^ 63 then none
                else parseDurTerms fuel (d + v) (s2.drop i)

/-- Models Go `time.ParseDuration`, returning the duration in nanoseconds
(`none` for Go's error return). -/
def goParseDuration (s : List Char) : Option Int :=
  let negs : Bool × List Char :=
    match s with
    | '-' :: rest => (true, rest)
    | '+' :: rest => (false, rest)
    | _ => (false, s)
  let neg := negs.1
  let s := negs.2
  if s = ['0'] then some 0
  else if s = [] then none
  else
    match parseDurTerms (s.length + 1) 0 s with
    | none => none
    | some d =>
      if neg then some (-(d : Int))
      else if d > 2 ^ 63 - 1 then none
      else some (d : Int)

/-! ## Duration display -/

/-- Decimal digits of a natural number, via `Nat.toDigits`. -/
def natDec (n : Nat) : List Char :=
  Nat.toDigits 10 n

/-- Two-digit zero-padded decimal, the effect of Go's `04`/`05` time layout
fields. -/
def pad2 (n : Nat) : List Char :=
  if n < 10 then '0' :: natDec n else natDec n

/-- Models `time.Time{}.Add(d).Format("04:05")`: the minute and second of
the wall-clock time `d` nanoseconds after the zero time (midnight), so the
minute and second of the floored second count modulo one day. -/
def goFormat0405 (d : Int) : List Char :=
  let secs : Int := Int.fdiv d 1000000000
  let sod : Nat := (Int.emod secs 86400).toNat
  pad2 (sod / 60 % 60) ++ ':' :: pad2 (sod % 60)

/-- Models `formatDurationString` (mpd-fzf.go:73): parse `str + "s"` as a
duration; on failure return the empty string; otherwise format minutes and
seconds, set off an unbounded hour count when the duration exceeds one hour
(`int(duration.Hours())` truncates toward zero, which for the positive
values reaching this branch is floor division), and parenthesize. -/
def formatDurationString (str : List Char) : List Char :=
  match goParseDuration (str ++ ['s']) with
  | none => []
  | some d =>
    let f := goFormat0405 d
    let f :=
      if d > 3600000000000 then
        natDec (Int.fdiv d 3600000000000).toNat ++ ':' :: f
      else f
    '(' :: f ++ [')']

/-! ## keyval and Track -/

/-- Models `keyval` (mpd-fzf.go:37): split at the first colon; when there is
no colon, or the colon is the final character, the whole line is the key and
the value is empty; otherwise the key is everything before the colon and the
value starts two characters past it. -/
def keyval (line : List Char) : List Char × List Char :=
  match goIndexChar line ':' with
  | none => (line, [])
  | some i =>
    if i = line.length - 1 then (line, [])
    else (line.take i, line.drop (i + 2))

/-- Models the `Track` struct (mpd-fzf.go:45). -/
structure Track where
  Album : List Char
  Artist : List Char
  Date : List Char
  Filename : List Char
  Genre : List Char
  Path : List Char
  Time : List Char
  Title : List Char
deriving DecidableEq, Repr

/-- The zero value `new(Track)`: every field empty. -/
def emptyTrack : Track :=
  ⟨[], [], [], [], [], [], [], []⟩

/-- Models `(*Track).Set` (mpd-fzf.go:56): store the value in the named
field, formatting `Time` as a duration; other keys change nothing. -/
def Track.set (t : Track) (key value : List Char) : Track :=
  if key = "Album".toList then { t with Album := value }
  else if key = "Artist".toList then { t with Artist := value }
  else if key = "Date".toList then { t with Date := value }
  else if key = "Genre".toList then { t with Genre := value }
  else if key = "Time".toList then { t with Time := formatDurationString value }
  else if key = "Title".toList then { t with Title := value }
  else t

/-! ## path/filepath -/

/-- One component step of `filepath.Clean`: drop empty components and `.`,
make `..` swallow the preceding component (or vanish at the root, or
accumulate at the front of a relative path), and push every other
component. -/
def cleanPush (rooted : Bool) (stack : List (List Char)) (c : List Char) :
    List (List Char) :=
  if c = [] ∨ c = ['.'] then stack
  else if c = "..".toList then
    if stack ≠ [] ∧ stack.getLast? ≠ some "..".toList then stack.dropLast
    else if rooted then stack
    else stack ++ ["..".toList]
  else stack ++ [c]

/-- Models `filepath.Clean` (unix) by its documented lexical rules applied
to the slash-separated components, and `.` for an emptied relative
path. -/
def goClean (p : List Char) : List Char :=
  if p = [] then ['.']
  else
    let rooted := decide (p.head? = some '/')
    let stack := (p.splitOn '/').foldl (cleanPush rooted) []
    let body := List.intercalate ['/'] stack
    if rooted then '/' :: body
    else if body = [] then ['.']
    else body

/-- Models `filepath.Join` (unix): skip leading empty elements, join the
rest (later empties included) with slashes, and clean; all-empty input
yields the empty path. -/
def goFilepathJoin (elems : List (List Char)) : List Char :=
  match elems.dropWhile (fun e => e = []) with
  | [] => []
  | rest => goClean (List.intercalate ['/'] rest)

/-- Models `filepath.Base` (unix): `.` for the empty path, otherwise strip
trailing slashes, keep everything after the last remaining slash, and fall
back to `/` when only slashes were present. -/
def goBase (p : List Char) : List Char :=
  if p = [] then ['.']
  else
    let p1 := (p.reverse.dropWhile (fun c => c = '/')).reverse
    let b := (p1.reverse.takeWhile (fun c => c ≠ '/')).reverse
    if b = [] then ['/'] else b

/-- Models `filepath.Ext` (unix): the suffix starting at the final dot in
the final slash-separated element, empty when that element has no dot. -/
def goExt (p : List Char) : List Char :=
  let rtail := p.reverse.takeWhile (fun c => c ≠ '/')
  if '.' ∈ rtail then (rtail.takeWhile (fun c => c ≠ '.') ++ ['.']).reverse
  else []

/-- Models `withoutExt` (mpd-fzf.go:86): the base name with its extension
removed. -/
def withoutExt (p : List Char) : List Char :=
  let b := goBase p
  goTrimTail b (goExt b)

/-! ## The database parser -/

/-- The error message of the directory-stack underflow check
(mpd-fzf.go:170). -/
def corruptMsg : List Char :=
  "Invalid directory state. Corrupted database?".toList

/-- The parser's mutable state: completed tracks, the in-progress track and
the directory stack (mpd-fzf.go:158-162). -/
structure ParseState where
  tracks : List Track
  cur : Track
  dirs : List (List Char)
deriving DecidableEq, Repr

/-- The initial parser state. -/
def initState : ParseState :=
  ⟨[], emptyTrack, []⟩

/-- One iteration of the scan loop in `parse` (mpd-fzf.go:164-181): split
the line with `keyval` and dispatch on the key, `failOn` (`Except.error`)
on a directory-stack underflow. -/
def parseStep (st : ParseState) (line : List Char) :
    Except (List Char) ParseState :=
  let kv := keyval line
  let key := kv.1
  let value := kv.2
  if key = "directory".toList then .ok { st with dirs := st.dirs ++ [value] }
  else if key = "end".toList then
    if st.dirs.length ≤ 0 then .error corruptMsg
    else .ok { st with dirs := st.dirs.dropLast }
  else if key = "Artist".toList ∨ key = "Album".toList ∨ key = "Date".toList
      ∨ key = "Genre".toList ∨ key = "Time".toList ∨ key = "Title".toList then
    .ok { st with cur := st.cur.set key value }
  else if key = "song_begin".toList then
    .ok { st with cur := { st.cur with
      Filename := value,
      Path := goFilepathJoin (st.dirs ++ [value]) } }
  else if key = "song_end".toList then
    .ok { st with tracks := st.tracks ++ [st.cur], cur := emptyTrack }
  else .ok st

/-- The scan loop of `parse` folded over a list of lines. -/
def parseLines (st : ParseState) : List (List Char) →
    Except (List Char) ParseState
  | [] => .ok st
  | l :: rest =>
    match parseStep st l with
    | .error e => .error e
    | .ok st' => parseLines st' rest

/-- Models `parse` (mpd-fzf.go:157): run the scan loop from the initial
state and return the completed tracks (`Except.error` models the fatal
`failOn` exit). -/
def parse (lines : List (List Char)) : Except (List Char) (List Track) :=
  match parseLines initState lines with
  | .error e => .error e
  | .ok st => .ok st.tracks

/-! ## The line codec -/

/-- The hidden delimiter (mpd-fzf.go:23). -/
def delim : List Char :=
  "////".toList

/-- Models the closure returned by `trackFormatter` (mpd-fzf.go:126-137)
with the computed `contentLen` as a parameter: visible text from artist,
title, filename fallback and album, truncated and padded to `contentLen`
minus the duration's length, then the duration, the hidden delimiter and
the path.  `none` models the `truncateAndPad` panic on a negative width.
Go measures `len(t.Time)` in bytes; the duration strings the program
stores in `Time` are ASCII, where bytes and runes agree. -/
def encodeTrack (contentLen : Int) (t : Track) : Option (List Char) :=
  let str := t.Artist ++ " - ".toList ++ t.Title
  let str := goTrimHead str " - ".toList
  let str := if str = [] then withoutExt t.Filename else str
  let str :=
    if t.Album ≠ [] then str ++ " \x7b".toList ++ t.Album ++ ['\x7d'] else str
  (truncateAndPad str (contentLen - (t.Time.length : Int)) "..".toList).map
    (fun s => s ++ t.Time ++ delim ++ t.Path)

/-- The per-line recovery step of `parseFzfOutput` (mpd-fzf.go:257-259):
everything after the last occurrence of the delimiter,
`s[strings.LastIndex(s, delimiter)+len(delimiter):]`; `none` models the
slice panic when the delimiter is absent from a line shorter than 3. -/
def decodeLine (s : List Char) : Option (List Char) :=
  goSliceFrom s (goLastIndex s delim + (delim.length : Int))

/-- The line preprocessing of `parseFzfOutput` (mpd-fzf.go:250-256): split
on newlines; an empty or leading-empty split yields no lines at all, and
otherwise a single trailing empty line is removed. -/
def fzfLines (out : List Char) : List (List Char) :=
  let songs := out.splitOn '\n'
  if songs = [] ∨ songs.head? = some [] then []
  else if songs.getLast? = some [] then songs.dropLast
  else songs

/-- Models `parseFzfOutput` (mpd-fzf.go:249): preprocess the block into
lines and recover a path from each; `none` models a slice panic on any
line. -/
def parseFzfOutput (out : List Char) : Option (List (List Char)) :=
  (fzfLines out).mapM decodeLine

/-! ## groupByArtist -/

/-- Models `groupByArtist` (mpd-fzf.go:140): the Go map holds, for each
artist value, the subsequence of tracks with that artist (appended in input
order, hence `List.filter`), and the loop concatenates the buckets in the
map's unspecified iteration order, here the explicit parameter `order` —
an enumeration, without repetition, of the artist values present. -/
def groupByArtist (tracks : List Track) (order : List (List Char)) :
    List Track :=
  order.flatMap (fun a => tracks.filter (fun t => t.Artist = a))

/-! ## Selector exit handling and the top level -/

/-- The `error` result of `exec.Cmd.Wait` on the selector: `ok` for `nil`,
`exitCode c` for an `ExitError` carrying a wait status with exit code `c`,
and `otherErr` for every other non-nil error. -/
inductive FzfWait where
  | ok : FzfWait
  | exitCode : Int → FzfWait
  | otherErr : FzfWait
deriving DecidableEq, Repr

/-- What `fzfCheckExit` does next: fall through, or terminate the process
with exit status 0 or 1. -/
inductive AfterCheck where
  | proceed : AfterCheck
  | exit0 : AfterCheck
  | exit1 : AfterCheck
deriving DecidableEq, Repr

/-- Models `fzfCheckExit` (mpd-fzf.go:230): a nil error falls through, exit
code 130 terminates with status 0, and any other error is fatal
(`fail` prints and exits with status 1). -/
def fzfCheckExit (w : FzfWait) : AfterCheck :=
  match w with
  | .ok => .proceed
  | .exitCode c => if c = 130 then .exit0 else .exit1
  | .otherErr => .exit1

/-- The observable outcome of one run: process exit status, the decoded
selection, and the queue tools invoked in order. -/
structure RunOutcome where
  exitStatus : Int
  selection : List (List Char)
  mpcCalls : List (List Char)
deriving DecidableEq, Repr

/-- Models the control flow of `main` and `fzfSongs`
(mpd-fzf.go:264-283, 356-364) with the external world as parameters: the
selector's wait result and raw output, and whether each `mpc` phase fails.
`fzfCheckExit` runs before the output is decoded; an empty selection
returns before any queue tool runs; `removeSongs` runs before
`insertSongs`, and a failure of either is fatal after the calls made so
far.  `none` models a decode panic. -/
def runMain (w : FzfWait) (out : List Char)
    (removeFails insertFails : Bool) : Option RunOutcome :=
  match fzfCheckExit w with
  | .exit0 => some ⟨0, [], []⟩
  | .exit1 => some ⟨1, [], []⟩
  | .proceed =>
    (parseFzfOutput out).map (fun songs =>
      if songs = [] then ⟨0, songs, []⟩
      else if removeFails then ⟨1, songs, ["remove".toList]⟩
      else if insertFails then
        ⟨1, songs, ["remove".toList, "insert".toList]⟩
      else ⟨0, songs, ["remove".toList, "insert".toList]⟩)

/-! ## Specification-side definitions (for the refinement claims) -/

/-- Well-formed directory or file name, the validity condition of a nested
database dump: nonempty, no path separator, and not one of the special
components `.` and `..`. -/
def wfName (n : List Char) : Prop :=
  n ≠ [] ∧ '/' ∉ n ∧ n ≠ ['.'] ∧ n ≠ "..".toList

instance (n : List Char) : Decidable (wfName n) := by
  unfold wfName; infer_instance

/-- Modelled from the spec: the paths the parser must produce — maintain
the stack of open directory names, remember on `song_begin` the
slash-joined stack plus filename, and emit the remembered path on each
`song_end`. -/
def specParsePaths (stack : List (List Char)) (cur : List Char) :
    List (List Char) → List (List Char)
  | [] => []
  | l :: rest =>
    let kv := keyval l
    if kv.1 = "directory".toList then
      specParsePaths (stack ++ [kv.2]) cur rest
    else if kv.1 = "end".toList then
      specParsePaths stack.dropLast cur rest
    else if kv.1 = "song_begin".toList then
      specParsePaths stack (List.intercalate ['/'] (stack ++ [kv.2])) rest
    else if kv.1 = "song_end".toList then
      cur :: specParsePaths stack [] rest
    else specParsePaths stack cur rest

/-- The number of `song_end` directives in a line sequence. -/
def countSongEnd (lines : List (List Char)) : Nat :=
  lines.countP (fun l => (keyval l).1 = "song_end".toList)

/-! ## Helper lemmas -/

theorem goIndexChar_eq_none {s : List Char} {c : Char} (h : c ∉ s) :
    goIndexChar s c = none := by
  induction s with
  | nil => rfl
  | cons a rest ih =>
    simp only [goIndexChar]
    rw [if_neg (by rintro rfl; exact h (List.mem_cons_self _ _)),
      ih (fun hm => h (List.mem_cons_of_mem _ hm))]
    rfl

theorem goIndexChar_append {k : List Char} {c : Char} (v : List Char)
    (h : c ∉ k) : goIndexChar (k ++ c :: v) c = some k.length := by
  induction k with
  | nil => simp [goIndexChar]
  | cons a rest ih =>
    simp only [List.cons_append, goIndexChar, List.append_eq]
    rw [if_neg (by rintro rfl; exact h (List.mem_cons_self _ _)),
      ih (fun hm => h (List.mem_cons_of_mem _ hm))]
    rfl

theorem intercalate_single (sep a : List Char) :
    List.intercalate sep [a] = a := by
  simp [List.intercalate, List.intersperse]

theorem intercalate_two (sep a b : List Char) :
    List.intercalate sep [a, b] = a ++ sep ++ b := by
  simp [List.intercalate, List.intersperse]

theorem intercalate_cons_of_ne (sep a : List Char) {rest : List (List Char)}
    (h : rest ≠ []) :
    List.intercalate sep (a :: rest) = a ++ sep ++ List.intercalate sep rest := by
  cases rest with
  | nil => exact absurd rfl h
  | cons b r => simp [List.intercalate, List.intersperse_cons_cons]

theorem intercalate_concat (sep x : List Char) :
    ∀ (ls : List (List Char)), ls ≠ [] →
      List.intercalate sep (ls ++ [x]) =
        List.intercalate sep ls ++ sep ++ x := by
  intro ls
  induction ls with
  | nil => intro h; exact absurd rfl h
  | cons a rest ih =>
    intro _
    cases hrest : rest with
    | nil => simp [intercalate_two, intercalate_single]
    | cons b r =>
      subst hrest
      rw [List.cons_append,
        intercalate_cons_of_ne sep a (by simp),
        intercalate_cons_of_ne sep a (by simp),
        ih (by simp)]
      simp [List.append_assoc]

/-! ## Claim C6 -/

/-- Claim C6 counterexample: on the line `"key:"` the splitter keeps the
colon in the key, returning `("key:", "")` and not `("key", "")` as the
claim states. -/
theorem c6_counterexample :
    keyval "key:".toList = ("key:".toList, []) ∧
      "key:".toList ≠ "key".toList := by
  exact ⟨by decide, by decide⟩

/-- Claim C6 (amended): `keyval` splits at the first colon, not at the
first colon-space; the value starts two characters past the colon, so the
character straight after the colon is dropped whether or not it is a
space; a line with no colon, or whose first colon is its last character,
maps to the whole line (colon included) paired with an empty value. -/
theorem c6_keyval_split :
    (∀ (k : List Char) (c : Char) (v : List Char), ':' ∉ k →
      keyval (k ++ ':' :: c :: v) = (k, v)) ∧
    (∀ k : List Char, ':' ∉ k → keyval (k ++ [':']) = (k ++ [':'], [])) ∧
    (∀ line : List Char, ':' ∉ line → keyval line = (line, [])) := by
  refine ⟨?_, ?_, ?_⟩
  · intro k c v hk
    simp only [keyval, goIndexChar_append _ hk]
    rw [if_neg (by simp), List.take_left,
      show k ++ ':' :: c :: v = (k ++ [':', c]) ++ v by simp,
      show k.length + 2 = (k ++ [':', c]).length by simp,
      List.drop_left]
  · intro k hk
    simp only [keyval, goIndexChar_append _ hk]
    rw [if_pos (by simp)]
  · intro line hline
    simp only [keyval, goIndexChar_eq_none hline]

/-- Claim C6 witness: the amended splitting behaviour on concrete lines. -/
theorem c6_witness :
    keyval "Artist: Sia".toList = ("Artist".toList, "Sia".toList) ∧
      keyval "a:bc".toList = ("a".toList, "c".toList) ∧
      keyval "key:".toList = ("key:".toList, []) ∧
      keyval "song_end".toList = ("song_end".toList, []) := by
  refine ⟨?_, ?_, ?_, ?_⟩
  · exact c6_keyval_split.1 "Artist".toList ' ' "Sia".toList (by decide)
  · exact c6_keyval_split.1 "a".toList 'b' "c".toList (by decide)
  · exact c6_keyval_split.2.1 "key".toList (by decide)
  · exact c6_keyval_split.2.2 "song_end".toList (by decide)

/-! ## Claim C4 -/

/-- Claim C4 counterexample: input `"-1"` does not map to the empty
string — `"-1s"` is a valid negative duration, and formatting the zero
time minus one second prints `"(59:59)"`. -/
theorem c4_counterexample :
    formatDurationString "-1".toList ≠ [] ∧
      formatDurationString "-1".toList = "(59:59)".toList := by
  exact ⟨by decide, by decide⟩

/-- Claim C4 (amended): the duration formatter maps `"125"` to
`"(02:05)"` and `"3725"` to `"(1:02:05)"`, and maps any input that fails
duration parsing to the empty string; but `"-1"` parses as a negative
duration and yields `"(59:59)"` instead of the empty string. -/
theorem c4_duration_formatter :
    formatDurationString "125".toList = "(02:05)".toList ∧
      formatDurationString "3725".toList = "(1:02:05)".toList ∧
      formatDurationString "-1".toList = "(59:59)".toList ∧
      ∀ s : List Char, goParseDuration (s ++ ['s']) = none →
        formatDurationString s = [] := by
  refine ⟨by decide, by decide, by decide, ?_⟩
  intro s h
  simp [formatDurationString, h]

/-- Claim C4 witness: a concrete unparseable input formats to the empty
string. -/
theorem c4_witness : formatDurationString "12q".toList = [] :=
  c4_duration_formatter.2.2.2 "12q".toList (by decide)

/-! ## Claim C3 -/

theorem parseLines_append (ls1 ls2 : List (List Char)) :
    ∀ st, parseLines st (ls1 ++ ls2) =
      match parseLines st ls1 with
      | .error e => .error e
      | .ok st' => parseLines st' ls2 := by
  induction ls1 with
  | nil => intro st; rfl
  | cons l rest ih =>
    intro st
    simp only [List.cons_append, parseLines]
    cases parseStep st l with
    | error e => rfl
    | ok st' => exact ih st'

/-- Claim C3 (confirmed): whenever a prefix of the input leaves the parser
with an empty directory stack, an `end` directive next makes the whole
parse fail with the corrupted-database error, whatever lines follow — the
parser never continues past that line. -/
theorem c3_underflow_fatal (ls1 : List (List Char)) (l : List Char)
    (ls2 : List (List Char)) (st : ParseState)
    (h1 : parseLines initState ls1 = .ok st) (h2 : st.dirs = [])
    (h3 : (keyval l).1 = "end".toList) :
    parse (ls1 ++ l :: ls2) = .error corruptMsg := by
  unfold parse
  rw [parseLines_append, h1]
  simp only [parseLines, parseStep, h3]
  simp [h2]

/-- Claim C3 witness: a lone `end` line fails the parse. -/
theorem c3_witness : parse ["end".toList] = .error corruptMsg := by
  have h := c3_underflow_fatal [] "end".toList [] initState rfl rfl (by decide)
  simpa using h

/-! ## Claim C8 -/

/-- Claim C8 (confirmed): when the selector exits with code 130 the run
terminates with exit status 0, an empty selection, and no queue tool
invoked; any other nonzero selector exit code is fatal (exit status 1,
before any queue tool runs). -/
theorem c8_interrupt_handling :
    (∀ (out : List Char) (r i : Bool),
      runMain (.exitCode 130) out r i = some ⟨0, [], []⟩) ∧
    ∀ (c : Int) (out : List Char) (r i : Bool), c ≠ 0 → c ≠ 130 →
      runMain (.exitCode c) out r i = some ⟨1, [], []⟩ := by
  constructor
  · intro out r i
    simp [runMain, fzfCheckExit]
  · intro c out r i _ h130
    simp [runMain, fzfCheckExit, h130]

/-- Claim C8 witness: the two exit behaviours at concrete arguments. -/
theorem c8_witness :
    runMain (.exitCode 130) "a////b\n".toList false false =
      some ⟨0, [], []⟩ ∧
    runMain (.exitCode 2) "a////b\n".toList false false =
      some ⟨1, [], []⟩ :=
  ⟨c8_interrupt_handling.1 "a////b\n".toList false false,
    c8_interrupt_handling.2 2 "a////b\n".toList false false
      (by decide) (by decide)⟩

/-! ## Occurrence-scan lemmas -/

theorem occFromTop_eq_none (s pat : List Char) :
    ∀ i, (∀ j ≤ i, occAt s pat j = false) → occFromTop s pat i = none := by
  intro i
  induction i with
  | zero =>
    intro h
    simp [occFromTop, h 0 (Nat.le_refl 0)]
  | succ n ih =>
    intro h
    have h1 := h (n + 1) (Nat.le_refl _)
    have h2 := ih (fun j hj => h j (Nat.le_trans hj (Nat.le_succ n)))
    simp [occFromTop, h1, h2]

theorem occFromTop_eq_some (s pat : List Char) (j : Nat) :
    ∀ i, j ≤ i → occAt s pat j = true →
      (∀ k, j < k → k ≤ i → occAt s pat k = false) →
      occFromTop s pat i = some j := by
  intro i
  induction i with
  | zero =>
    intro hj hocc _
    have hj0 : j = 0 := Nat.le_zero.1 hj
    subst hj0
    simp [occFromTop, hocc]
  | succ n ih =>
    intro hj hocc hk
    by_cases hje : j = n + 1
    · subst hje
      simp [occFromTop, hocc]
    · have hjn : j ≤ n := Nat.lt_succ_iff.1 (Nat.lt_of_le_of_ne hj hje)
      have hfalse : occAt s pat (n + 1) = false :=
        hk (n + 1) (Nat.lt_succ_of_le hjn) (Nat.le_refl _)
      have hrest := ih hjn hocc
        (fun k h1 h2 => hk k h1 (Nat.le_trans h2 (Nat.le_succ n)))
      simp [occFromTop, hfalse, hrest]

/-! ## Claim C7 -/

/-- Claim C7 counterexample: the block `"abcdef\n"` has one line without
the delimiter; far from being skipped, that line contributes the garbage
entry `"def"` (everything from index `-1 + 4 = 3` on). -/
theorem c7_counterexample :
    goLastIndex "abcdef".toList delim = -1 ∧
      parseFzfOutput "abcdef\n".toList = some ["def".toList] ∧
      ["def".toList] ≠ ([] : List (List Char)) := by
  exact ⟨by decide, by decide, by decide⟩

/-- Claim C7 (amended): an output line that does not contain the hidden
delimiter is not skipped — `strings.LastIndex` returns `-1`, so the
decoder keeps the substring of the line starting at index 3 as a garbage
path, and the slice panics (aborting the run) when the line is shorter
than 3 characters. -/
theorem c7_no_delimiter_garbage (s : List Char)
    (h : ∀ i ≤ s.length, occAt s delim i = false) :
    decodeLine s = if 3 ≤ s.length then some (s.drop 3) else none := by
  have hnone : occFromTop s delim s.length = none :=
    occFromTop_eq_none s delim s.length h
  unfold decodeLine goLastIndex
  rw [hnone]
  have h4 : (-1 + (delim.length : Int)) = 3 := by decide
  unfold goSliceFrom
  rw [h4]
  by_cases hlen : 3 ≤ s.length
  · rw [if_pos ⟨by norm_num, by exact_mod_cast hlen⟩, if_pos hlen]
    rfl
  · rw [if_neg (fun hc => hlen (by exact_mod_cast hc.2)), if_neg hlen]

/-- Claim C7 witness: the amended behaviour on the concrete delimiter-free
line `"abcdef"`. -/
theorem c7_witness :
    decodeLine "abcdef".toList =
      if 3 ≤ "abcdef".toList.length then some ("abcdef".toList.drop 3)
      else none :=
  c7_no_delimiter_garbage "abcdef".toList (by decide)

/-! ## Claim C10 -/

/-- Claim C10 (confirmed): a selector output block whose first line is
empty decodes to the empty path sequence, all later lines discarded;
otherwise exactly one trailing empty line (the artifact of the trailing
newline) is dropped and every other line, a trailing empty line among
them, is kept. -/
theorem c10_leading_empty_line :
    (∀ out : List Char, (out.splitOn '\n').head? = some [] →
      parseFzfOutput out = some []) ∧
    ∀ ls : List (List Char), ls ≠ [] → ls.head? ≠ some [] →
      (∀ l ∈ ls, '\n' ∉ l) →
      fzfLines (List.intercalate ['\n'] ls ++ ['\n']) = ls := by
  constructor
  · intro out h
    have hempty : fzfLines out = [] := by simp [fzfLines, h]
    unfold parseFzfOutput
    rw [hempty]
    rfl
  · intro ls h1 h2 h3
    have key : List.intercalate ['\n'] ls ++ ['\n'] =
        List.intercalate ['\n'] (ls ++ [[]]) := by
      rw [intercalate_concat ['\n'] [] ls h1, List.append_nil]
    have hx : ∀ l ∈ ls ++ [[]], '\n' ∉ l := by
      intro l hl
      rcases List.mem_append.1 hl with hm | hm
      · exact h3 l hm
      · simp only [List.mem_singleton] at hm
        subst hm
        simp
    have hsplit : (List.intercalate ['\n'] (ls ++ [[]])).splitOn '\n' =
        ls ++ [[]] :=
      List.splitOn_intercalate (ls ++ [[]]) '\n' hx (by simp)
    have hne : ls ++ [[]] ≠ [] := by simp
    have hh : (ls ++ [[]]).head? ≠ some [] := by
      cases ls with
      | nil => exact absurd rfl h1
      | cons a ls' =>
        intro e
        simp only [List.cons_append, List.head?_cons] at e
        exact h2 (by rw [List.head?_cons, e])
    have hl : (ls ++ [[]]).getLast? = some [] := List.getLast?_concat _
    have hdrop : (ls ++ [[]]).dropLast = ls := List.dropLast_concat
    rw [key]
    simp only [fzfLines]
    rw [hsplit, if_neg (not_or.2 ⟨hne, hh⟩), if_pos hl, hdrop]

/-- Claim C10 witness: a block starting with an empty line decodes to
nothing, and a well-formed two-line block keeps exactly its two lines. -/
theorem c10_witness :
    parseFzfOutput "\na////b\n".toList = some [] ∧
      fzfLines (List.intercalate ['\n']
          ["x////y".toList, "u////v".toList] ++ ['\n']) =
        ["x////y".toList, "u////v".toList] :=
  ⟨c10_leading_empty_line.1 "\na////b\n".toList (by decide),
    c10_leading_empty_line.2 ["x////y".toList, "u////v".toList]
      (by decide) (by decide) (by decide)⟩

/-! ## Claim C5 -/

/-- Claim C5 (confirmed): for every track list, every artist value `a` and
every iteration order of the map's keys (any enumeration, without
repetition, covering the artists present), the grouped output is some
prefix without `a`-tracks, then exactly the `a`-tracks in their original
relative order (`tracks.filter`), then a suffix without `a`-tracks — so
same-artist tracks are contiguous and keep their input order. -/
theorem c5_artist_contiguity (tracks : List Track)
    (order : List (List Char)) (a : List Char) (hnd : order.Nodup)
    (hcov : ∀ t ∈ tracks, t.Artist ∈ order) :
    ∃ pre post,
      groupByArtist tracks order =
        pre ++ tracks.filter (fun t => t.Artist = a) ++ post ∧
      (∀ t ∈ pre, t.Artist ≠ a) ∧ (∀ t ∈ post, t.Artist ≠ a) := by
  by_cases ha : a ∈ order
  · obtain ⟨o1, o2, rfl⟩ := List.append_of_mem ha
    have hdisj := (List.nodup_append.1 hnd).2.2
    have ha1 : a ∉ o1 := fun hm => hdisj hm (List.mem_cons_self _ _)
    have ha2 : a ∉ o2 :=
      (List.nodup_cons.1 (List.nodup_append.1 hnd).2.1).1
    refine ⟨o1.flatMap (fun b => tracks.filter (fun t => t.Artist = b)),
      o2.flatMap (fun b => tracks.filter (fun t => t.Artist = b)),
      ?_, ?_, ?_⟩
    · simp [groupByArtist]
    · intro t ht
      obtain ⟨b, hb, htb⟩ := List.mem_flatMap.1 ht
      have hart : t.Artist = b := by
        simpa using (List.mem_filter.1 htb).2
      intro he
      exact ha1 ((hart.symm.trans he) ▸ hb)
    · intro t ht
      obtain ⟨b, hb, htb⟩ := List.mem_flatMap.1 ht
      have hart : t.Artist = b := by
        simpa using (List.mem_filter.1 htb).2
      intro he
      exact ha2 ((hart.symm.trans he) ▸ hb)
  · have hfil : tracks.filter (fun t => t.Artist = a) = [] := by
      refine List.filter_eq_nil_iff.2 (fun t ht => ?_)
      simp only [decide_eq_true_eq]
      intro he
      exact ha (he ▸ hcov t ht)
    refine ⟨[], groupByArtist tracks order, by simp [hfil], by simp, ?_⟩
    intro t ht
    obtain ⟨b, hb, htb⟩ := List.mem_flatMap.1 ht
    have hart : t.Artist = b := by
      simpa using (List.mem_filter.1 htb).2
    intro he
    exact ha ((hart.symm.trans he) ▸ hb)

/-- Claim C5 witness: two `"A"`-tracks separated in the input stay
adjacent, in input order, under the iteration order `["B", "A"]`. -/
theorem c5_witness :
    ∃ pre post,
      groupByArtist
        [{ emptyTrack with Artist := "A".toList, Title := "1".toList },
          { emptyTrack with Artist := "B".toList },
          { emptyTrack with Artist := "A".toList, Title := "2".toList }]
        ["B".toList, "A".toList] =
      pre ++
        [{ emptyTrack with Artist := "A".toList, Title := "1".toList },
          { emptyTrack with Artist := "B".toList },
          { emptyTrack with Artist := "A".toList, Title := "2".toList }].filter
          (fun t => t.Artist = "A".toList) ++ post ∧
      (∀ t ∈ pre, t.Artist ≠ "A".toList) ∧
      (∀ t ∈ post, t.Artist ≠ "A".toList) :=
  c5_artist_contiguity _ _ "A".toList (by decide) (by decide)

/-! ## Width lemmas and Claim C9 -/

theorem strWidth_append (a b : List Char) :
    strWidth (a ++ b) = strWidth a + strWidth b := by
  simp [strWidth]

theorem strWidth_replicate_space (n : Nat) :
    strWidth (List.replicate n ' ') = n := by
  have h1 : runeWidth ' ' = 1 := by decide
  simp [strWidth, List.map_replicate, List.sum_replicate, h1]

theorem goFillRight_width (t : List Char) (w : Int)
    (h : (strWidth t : Int) ≤ w) :
    (strWidth (goFillRight t w) : Int) = w := by
  simp only [goFillRight]
  by_cases hc : w - (strWidth t : Int) > 0
  · rw [if_pos hc, strWidth_append, strWidth_replicate_space]
    push_cast
    omega
  · rw [if_neg hc]
    omega

theorem truncRunes_spec (limit : Int) :
    ∀ (s : List Char) (w0 : Nat), (w0 : Int) ≤ limit →
      ∃ k, truncRunes limit w0 s = s.take k ∧
        (w0 : Int) + (strWidth (s.take k) : Int) ≤ limit := by
  intro s
  induction s with
  | nil =>
    intro w0 h
    refine ⟨0, by simp [truncRunes], ?_⟩
    simp [strWidth]
    omega
  | cons c rest ih =>
    intro w0 h
    by_cases hc : ((w0 + runeWidth c : Nat) : Int) > limit
    · refine ⟨0, ?_, ?_⟩
      · simp only [truncRunes]
        rw [if_pos hc]
        simp
      · simp [strWidth]
        omega
    · push_neg at hc
      obtain ⟨k, hk, hw⟩ := ih (w0 + runeWidth c) hc
      refine ⟨k + 1, ?_, ?_⟩
      · simp only [truncRunes]
        rw [if_neg (not_lt.2 hc), hk]
        rfl
      · rw [List.take_succ_cons]
        have : strWidth (c :: rest.take k) = runeWidth c + strWidth (rest.take k) := by
          simp [strWidth]
        rw [this]
        push_cast at hw ⊢
        omega

/-- Claim C9 counterexample: with target width 0 (a non-negative width
below the two-column ellipsis) truncating-and-padding `"abc"` returns
`".."`, whose column width is 2, not 0. -/
theorem c9_counterexample :
    truncateAndPad "abc".toList 0 "..".toList = some "..".toList ∧
      strWidth "..".toList ≠ 0 := by
  exact ⟨by decide, by decide⟩

/-- Claim C9 (amended): for every string and every target width `N` of at
least the two-column ellipsis width, truncate-and-pad yields a string of
column width exactly `N`; strings already fitting are kept whole, and a
wider string is cut at a rune boundary (a `take` prefix, never splitting a
wide character) so that the kept prefix plus the ellipsis is at most `N`
columns.  For `N` of 0 or 1 the result can exceed `N`. -/
theorem c9_truncate_pad (s : List Char) (N : Int) (h2 : 2 ≤ N) :
    (∃ r, truncateAndPad s N "..".toList = some r ∧
      (strWidth r : Int) = N) ∧
    ((strWidth s : Int) ≤ N → goTruncate s N "..".toList = s) ∧
    ((strWidth s : Int) > N →
      ∃ k, goTruncate s N "..".toList = s.take k ++ "..".toList ∧
        (strWidth (s.take k) : Int) + 2 ≤ N) := by
  have hdots : (strWidth "..".toList : Int) = 2 := by decide
  have h0 : ¬ (N < 0) := by omega
  refine ⟨?_, ?_, ?_⟩
  · by_cases hs : (strWidth s : Int) ≤ N
    · refine ⟨goFillRight s N, ?_, goFillRight_width s N hs⟩
      simp [truncateAndPad, goTruncate, hs, h0]
    · push_neg at hs
      obtain ⟨k, hk, hw⟩ := truncRunes_spec (N - 2) s 0 (by omega)
      have htr : goTruncate s N "..".toList = s.take k ++ "..".toList := by
        simp only [goTruncate, hdots]
        rw [if_neg (not_le.2 hs), hk]
      have hwid : (strWidth (s.take k ++ "..".toList) : Int) ≤ N := by
        rw [strWidth_append]
        push_cast
        push_cast at hdots hw
        omega
      refine ⟨goFillRight (s.take k ++ "..".toList) N, ?_,
        goFillRight_width _ N hwid⟩
      simp only [truncateAndPad, if_neg h0]
      rw [htr]
  · intro hs
    simp [goTruncate, hs]
  · intro hs
    obtain ⟨k, hk, hw⟩ := truncRunes_spec (N - 2) s 0 (by omega)
    refine ⟨k, ?_, by push_cast at hw ⊢; omega⟩
    simp only [goTruncate, hdots]
    rw [if_neg (not_le.2 hs), hk]

/-- Claim C9 witness: the amended width guarantees at a concrete wide
string (three two-column characters, total width 6) and target width 4. -/
theorem c9_witness :
    (∃ r, truncateAndPad "山山山".toList 4 "..".toList = some r ∧
      (strWidth r : Int) = 4) ∧
    ((strWidth "山山山".toList : Int) ≤ 4 →
      goTruncate "山山山".toList 4 "..".toList = "山山山".toList) ∧
    ((strWidth "山山山".toList : Int) > 4 →
      ∃ k, goTruncate "山山山".toList 4 "..".toList =
        "山山山".toList.take k ++ "..".toList ∧
        (strWidth ("山山山".toList.take k) : Int) + 2 ≤ 4) :=
  c9_truncate_pad "山山山".toList 4 (by norm_num)

/-! ## Claim C1 -/

theorem decodeLine_append (v p : List Char) (h1 : p.head? ≠ some '/')
    (h2 : ∀ i ≤ p.length, occAt p delim i = false) :
    decodeLine (v ++ (delim ++ p)) = some p := by
  have hdl : delim.length = 4 := by decide
  have hlen : (v ++ (delim ++ p)).length = v.length + (4 + p.length) := by
    simp [hdl]
  have hocc : occAt (v ++ (delim ++ p)) delim v.length = true := by
    unfold occAt
    rw [List.drop_left, List.take_left]
    simp
  have hafter : ∀ k, v.length < k → k ≤ (v ++ (delim ++ p)).length →
      occAt (v ++ (delim ++ p)) delim k = false := by
    intro k hk1 hk2
    obtain ⟨d, rfl⟩ : ∃ d, k = v.length + d := ⟨k - v.length, by omega⟩
    have hd1 : 1 ≤ d := by omega
    unfold occAt
    rw [show (v ++ (delim ++ p)).drop (v.length + d) = (delim ++ p).drop d by
      simp [List.drop_append]]
    rw [hdl]
    by_cases hd4 : 4 ≤ d
    · obtain ⟨m, rfl⟩ : ∃ m, d = 4 + m := ⟨d - 4, by omega⟩
      rw [show (delim ++ p).drop (4 + m) = p.drop m by
        rw [show (4 : Nat) + m = delim.length + m by rw [hdl]]
        simp [List.drop_append]]
      have hm : m ≤ p.length := by
        rw [hlen] at hk2
        omega
      have hx := h2 m hm
      unfold occAt at hx
      rw [hdl] at hx
      exact hx
    · have hd3 : d ≤ 3 := by omega
      have hdelim : delim = ['/', '/', '/', '/'] := rfl
      apply decide_eq_false
      intro heq
      rw [hdelim] at heq
      interval_cases d <;> rcases p with _ | ⟨c, p'⟩ <;> simp_all
  have htop : occFromTop (v ++ (delim ++ p)) delim
      (v ++ (delim ++ p)).length = some v.length :=
    occFromTop_eq_some _ _ v.length _ (by rw [hlen]; omega) hocc hafter
  have hli : goLastIndex (v ++ (delim ++ p)) delim = (v.length : Int) := by
    unfold goLastIndex
    rw [htop]
  unfold decodeLine
  rw [hli, hdl]
  unfold goSliceFrom
  rw [if_pos ⟨by omega, by rw [hlen]; push_cast; omega⟩]
  congr 1
  rw [show (((v.length : Int)) + ((4 : Nat) : Int)).toNat = v.length + 4 by
    omega]
  rw [show (v ++ (delim ++ p)).drop (v.length + 4) = (delim ++ p).drop 4 by
    simp [List.drop_append]]
  rw [show delim = ['/', '/', '/', '/'] from rfl]
  rfl

/-- Claim C1 counterexample: a track whose path itself contains the
delimiter `////` (and no newline) does not round-trip — the decoder's
last-occurrence split lands inside the path and recovers only its tail. -/
theorem c1_counterexample :
    ((encodeTrack 80 { emptyTrack with Path := "a////b".toList }).bind
        decodeLine) = some "b".toList ∧
      "b".toList ≠ "a////b".toList := by
  exact ⟨by decide, by decide⟩

/-- Claim C1 (amended): encoding a track and decoding the resulting line
recovers the path exactly — the decoder splitting at the last occurrence
of the delimiter — for every track whose path contains no newline, does
not itself contain the delimiter `////`, and does not begin with `/`,
regardless of the contents of all other fields. -/
theorem c1_encode_decode (t : Track) (cl : Int) (line : List Char)
    (henc : encodeTrack cl t = some line) (_hnl : '\n' ∉ t.Path)
    (hhead : t.Path.head? ≠ some '/')
    (hnd : ∀ i ≤ t.Path.length, occAt t.Path delim i = false) :
    decodeLine line = some t.Path := by
  simp only [encodeTrack, Option.map_eq_some'] at henc
  obtain ⟨s0, hs0, hline⟩ := henc
  rw [← hline]
  rw [show s0 ++ t.Time ++ delim ++ t.Path =
    (s0 ++ t.Time) ++ (delim ++ t.Path) by simp [List.append_assoc]]
  exact decodeLine_append _ _ hhead hnd

/-- Claim C1 witness: a concrete encoded track decodes back to its
path. -/
theorem c1_witness : decodeLine "A - B////p".toList = some "p".toList :=
  c1_encode_decode
    { emptyTrack with Artist := "A".toList, Title := "B".toList, Path := "p".toList }
    5 "A - B////p".toList (by decide) (by decide) (by decide) (by decide)

/-! ## Path-join lemmas -/

theorem cleanPush_wf (r : Bool) (c : List Char) (stack : List (List Char))
    (hc : wfName c) : cleanPush r stack c = stack ++ [c] := by
  unfold cleanPush
  rw [if_neg (by rintro (h | h); exacts [hc.1 h, hc.2.2.1 h]),
    if_neg hc.2.2.2]

theorem cleanFold_wf (r : Bool) :
    ∀ (cs acc : List (List Char)), (∀ c ∈ cs, wfName c) →
      cs.foldl (cleanPush r) acc = acc ++ cs := by
  intro cs
  induction cs with
  | nil =>
    intro acc _
    simp
  | cons c rest ih =>
    intro acc h
    rw [List.foldl_cons, cleanPush_wf r c acc (h c (List.mem_cons_self _ _)),
      ih (acc ++ [c]) (fun x hx => h x (List.mem_cons_of_mem _ hx))]
    simp

theorem intercalate_wf_ne_nil (l : List (List Char)) (hne : l ≠ [])
    (h : ∀ d ∈ l, d ≠ []) : List.intercalate ['/'] l ≠ [] := by
  cases l with
  | nil => exact absurd rfl hne
  | cons d rest =>
    cases rest with
    | nil =>
      rw [intercalate_single]
      exact h d (List.mem_cons_self _ _)
    | cons b r =>
      rw [intercalate_cons_of_ne _ _ (by simp)]
      intro he
      simp at he

theorem intercalate_head_wf (d : List Char) (rest : List (List Char))
    (hd : d ≠ []) :
    (List.intercalate ['/'] (d :: rest)).head? = d.head? := by
  cases rest with
  | nil => rw [intercalate_single]
  | cons b r =>
    rw [intercalate_cons_of_ne _ _ (by simp)]
    rcases d with _ | ⟨c, d'⟩
    · exact absurd rfl hd
    · simp

theorem goClean_wf (l : List (List Char)) (hne : l ≠ [])
    (hwf : ∀ d ∈ l, wfName d) :
    goClean (List.intercalate ['/'] l) = List.intercalate ['/'] l := by
  obtain ⟨d, rest, rfl⟩ : ∃ d rest, l = d :: rest := by
    cases l with
    | nil => exact absurd rfl hne
    | cons d rest => exact ⟨d, rest, rfl⟩
  have hdwf := hwf d (List.mem_cons_self _ _)
  have hpne : List.intercalate ['/'] (d :: rest) ≠ [] :=
    intercalate_wf_ne_nil _ (by simp) (fun x hx => (hwf x hx).1)
  have hhead : ¬ ((List.intercalate ['/'] (d :: rest)).head? = some '/') := by
    rw [intercalate_head_wf d rest hdwf.1]
    intro he
    have hmem : '/' ∈ d := by
      cases d with
      | nil => simp at he
      | cons c d' =>
        simp only [List.head?_cons, Option.some.injEq] at he
        rw [he]
        exact List.mem_cons_self _ _
    exact hdwf.2.1 hmem
  have hrooted :
      decide ((List.intercalate ['/'] (d :: rest)).head? = some '/') = false :=
    decide_eq_false hhead
  have hsplit : (List.intercalate ['/'] (d :: rest)).splitOn '/' = d :: rest :=
    List.splitOn_intercalate (d :: rest) '/' (fun x hx => (hwf x hx).2.1)
      (by simp)
  unfold goClean
  rw [if_neg hpne]
  simp only [hrooted, hsplit, cleanFold_wf false (d :: rest) [] hwf,
    List.nil_append, Bool.false_eq_true, if_false]
  rw [if_neg hpne]

theorem goFilepathJoin_wf (l : List (List Char)) (hne : l ≠ [])
    (hwf : ∀ d ∈ l, wfName d) :
    goFilepathJoin l = List.intercalate ['/'] l := by
  obtain ⟨d, rest, rfl⟩ : ∃ d rest, l = d :: rest := by
    cases l with
    | nil => exact absurd rfl hne
    | cons d rest => exact ⟨d, rest, rfl⟩
  unfold goFilepathJoin
  have hd1 : (d :: rest).dropWhile (fun e => decide (e = [])) = d :: rest := by
    rw [List.dropWhile_cons]
    simp [(hwf d (List.mem_cons_self _ _)).1]
  rw [hd1]
  exact goClean_wf (d :: rest) (by simp) hwf

/-! ## Claim C2 -/

theorem Track.set_path (t : Track) (k v : List Char) :
    (t.set k v).Path = t.Path := by
  unfold Track.set
  split_ifs <;> rfl

theorem countSongEnd_cons (l : List Char) (rest : List (List Char)) :
    countSongEnd (l :: rest) =
      countSongEnd rest +
        (if (keyval l).1 = "song_end".toList then 1 else 0) := by
  simp [countSongEnd, List.countP_cons]

theorem specParsePaths_cons (stack : List (List Char)) (cur l : List Char)
    (rest : List (List Char)) :
    specParsePaths stack cur (l :: rest) =
      if (keyval l).1 = "directory".toList then
        specParsePaths (stack ++ [(keyval l).2]) cur rest
      else if (keyval l).1 = "end".toList then
        specParsePaths stack.dropLast cur rest
      else if (keyval l).1 = "song_begin".toList then
        specParsePaths stack
          (List.intercalate ['/'] (stack ++ [(keyval l).2])) rest
      else if (keyval l).1 = "song_end".toList then
        cur :: specParsePaths stack [] rest
      else specParsePaths stack cur rest := rfl


theorem parseLines_paths (lines : List (List Char)) :
    ∀ (st fin : ParseState),
      (∀ l ∈ lines,
        ((keyval l).1 = "directory".toList → wfName (keyval l).2) ∧
        ((keyval l).1 = "song_begin".toList → wfName (keyval l).2)) →
      (∀ d ∈ st.dirs, wfName d) →
      parseLines st lines = .ok fin →
      fin.tracks.length = st.tracks.length + countSongEnd lines ∧
      fin.tracks.map Track.Path =
        st.tracks.map Track.Path ++
          specParsePaths st.dirs st.cur.Path lines := by
  induction lines with
  | nil =>
    intro st fin _ _ h
    simp only [parseLines] at h
    injection h with h
    subst h
    simp [countSongEnd, specParsePaths]
  | cons l rest ih =>
    intro st fin hw hd h
    have hwrest : ∀ l' ∈ rest,
        ((keyval l').1 = "directory".toList → wfName (keyval l').2) ∧
        ((keyval l').1 = "song_begin".toList → wfName (keyval l').2) :=
      fun l' hm => hw l' (List.mem_cons_of_mem _ hm)
    rw [show parseLines st (l :: rest) =
        match parseStep st l with
        | .error e => .error e
        | .ok st' => parseLines st' rest from rfl] at h
    by_cases h1 : (keyval l).1 = "directory".toList
    · have hstep : parseStep st l = .ok ⟨st.tracks, st.cur, st.dirs ++ [(keyval l).2]⟩ := by
        simp only [parseStep]
        rw [if_pos h1]
      rw [hstep] at h
      have h' : parseLines ⟨st.tracks, st.cur, st.dirs ++ [(keyval l).2]⟩ rest = .ok fin := h
      have hd' : ∀ d ∈ st.dirs ++ [(keyval l).2], wfName d := by
        intro d hdm
        rcases List.mem_append.1 hdm with hm | hm
        · exact hd d hm
        · simp only [List.mem_singleton] at hm
          subst hm
          exact (hw l (List.mem_cons_self _ _)).1 h1
      have hlen : fin.tracks.length = st.tracks.length + countSongEnd rest :=
        (ih _ fin hwrest hd' h').1
      have hmap : fin.tracks.map Track.Path = st.tracks.map Track.Path ++
          specParsePaths (st.dirs ++ [(keyval l).2]) st.cur.Path rest :=
        (ih _ fin hwrest hd' h').2
      refine ⟨?_, ?_⟩
      · rw [hlen, countSongEnd_cons, if_neg (by rw [h1]; decide)]
        omega
      · rw [hmap, specParsePaths_cons, if_pos h1]
    · by_cases h2 : (keyval l).1 = "end".toList
      · by_cases hde : st.dirs.length ≤ 0
        · have hstep : parseStep st l = .error corruptMsg := by
            simp only [parseStep]
            rw [if_neg h1, if_pos h2, if_pos hde]
          rw [hstep] at h
          simp at h
        · have hstep : parseStep st l = .ok ⟨st.tracks, st.cur, st.dirs.dropLast⟩ := by
            simp only [parseStep]
            rw [if_neg h1, if_pos h2, if_neg hde]
          rw [hstep] at h
          have h' : parseLines ⟨st.tracks, st.cur, st.dirs.dropLast⟩ rest = .ok fin := h
          have hd' : ∀ d ∈ st.dirs.dropLast, wfName d := fun d hm =>
            hd d (List.dropLast_subset _ hm)
          have hlen : fin.tracks.length = st.tracks.length + countSongEnd rest :=
            (ih _ fin hwrest hd' h').1
          have hmap : fin.tracks.map Track.Path = st.tracks.map Track.Path ++
              specParsePaths st.dirs.dropLast st.cur.Path rest :=
            (ih _ fin hwrest hd' h').2
          refine ⟨?_, ?_⟩
          · rw [hlen, countSongEnd_cons, if_neg (by rw [h2]; decide)]
            omega
          · rw [hmap, specParsePaths_cons, if_neg h1, if_pos h2]
      · by_cases h3 : (keyval l).1 = "Artist".toList ∨
            (keyval l).1 = "Album".toList ∨ (keyval l).1 = "Date".toList ∨
            (keyval l).1 = "Genre".toList ∨ (keyval l).1 = "Time".toList ∨
            (keyval l).1 = "Title".toList
        · have hstep : parseStep st l = .ok ⟨st.tracks, st.cur.set (keyval l).1 (keyval l).2, st.dirs⟩ := by
            simp only [parseStep]
            rw [if_neg h1, if_neg h2, if_pos h3]
          rw [hstep] at h
          have h' : parseLines ⟨st.tracks, st.cur.set (keyval l).1 (keyval l).2, st.dirs⟩ rest = .ok fin := h
          have hnsb : (keyval l).1 ≠ "song_begin".toList := by
            rcases h3 with hx | hx | hx | hx | hx | hx <;> rw [hx] <;> decide
          have hnse : (keyval l).1 ≠ "song_end".toList := by
            rcases h3 with hx | hx | hx | hx | hx | hx <;> rw [hx] <;> decide
          have hlen : fin.tracks.length = st.tracks.length + countSongEnd rest :=
            (ih ⟨st.tracks, st.cur.set (keyval l).1 (keyval l).2, st.dirs⟩ fin hwrest hd h').1
          have hmap : fin.tracks.map Track.Path = st.tracks.map Track.Path ++
              specParsePaths st.dirs ((st.cur.set (keyval l).1 (keyval l).2).Path) rest :=
            (ih ⟨st.tracks, st.cur.set (keyval l).1 (keyval l).2, st.dirs⟩ fin hwrest hd h').2
          rw [Track.set_path] at hmap
          refine ⟨?_, ?_⟩
          · rw [hlen, countSongEnd_cons, if_neg hnse]
            omega
          · rw [hmap, specParsePaths_cons, if_neg h1, if_neg h2, if_neg hnsb,
              if_neg hnse]
        · by_cases h4 : (keyval l).1 = "song_begin".toList
          · have hstep : parseStep st l = .ok ⟨st.tracks, ⟨st.cur.Album, st.cur.Artist, st.cur.Date, (keyval l).2, st.cur.Genre, goFilepathJoin (st.dirs ++ [(keyval l).2]), st.cur.Time, st.cur.Title⟩, st.dirs⟩ := by
              simp only [parseStep]
              rw [if_neg h1, if_neg h2, if_neg h3, if_pos h4]
            rw [hstep] at h
            have h' : parseLines ⟨st.tracks, ⟨st.cur.Album, st.cur.Artist, st.cur.Date, (keyval l).2, st.cur.Genre, goFilepathJoin (st.dirs ++ [(keyval l).2]), st.cur.Time, st.cur.Title⟩, st.dirs⟩ rest = .ok fin := h
            have hwv : wfName (keyval l).2 :=
              (hw l (List.mem_cons_self _ _)).2 h4
            have hjoin : goFilepathJoin (st.dirs ++ [(keyval l).2]) =
                List.intercalate ['/'] (st.dirs ++ [(keyval l).2]) := by
              apply goFilepathJoin_wf _ (by simp)
              intro d hm
              rcases List.mem_append.1 hm with hm | hm
              · exact hd d hm
              · simp only [List.mem_singleton] at hm
                subst hm
                exact hwv
            have hlen : fin.tracks.length = st.tracks.length + countSongEnd rest :=
              (ih ⟨st.tracks, ⟨st.cur.Album, st.cur.Artist, st.cur.Date, (keyval l).2, st.cur.Genre, goFilepathJoin (st.dirs ++ [(keyval l).2]), st.cur.Time, st.cur.Title⟩, st.dirs⟩ fin hwrest hd h').1
            have hmap : fin.tracks.map Track.Path = st.tracks.map Track.Path ++
                specParsePaths st.dirs (goFilepathJoin (st.dirs ++ [(keyval l).2])) rest :=
              (ih ⟨st.tracks, ⟨st.cur.Album, st.cur.Artist, st.cur.Date, (keyval l).2, st.cur.Genre, goFilepathJoin (st.dirs ++ [(keyval l).2]), st.cur.Time, st.cur.Title⟩, st.dirs⟩ fin hwrest hd h').2
            rw [hjoin] at hmap
            refine ⟨?_, ?_⟩
            · rw [hlen, countSongEnd_cons, if_neg (by rw [h4]; decide)]
              omega
            · rw [hmap, specParsePaths_cons, if_neg h1, if_neg h2, if_pos h4]
          · by_cases h5 : (keyval l).1 = "song_end".toList
            · have hstep : parseStep st l = .ok ⟨st.tracks ++ [st.cur], emptyTrack, st.dirs⟩ := by
                simp only [parseStep]
                rw [if_neg h1, if_neg h2, if_neg h3, if_neg h4, if_pos h5]
              rw [hstep] at h
              have h' : parseLines ⟨st.tracks ++ [st.cur], emptyTrack, st.dirs⟩ rest = .ok fin := h
              have hlen : fin.tracks.length = (st.tracks ++ [st.cur]).length + countSongEnd rest :=
                (ih ⟨st.tracks ++ [st.cur], emptyTrack, st.dirs⟩ fin hwrest hd h').1
              have hmap : fin.tracks.map Track.Path = (st.tracks ++ [st.cur]).map Track.Path ++
                  specParsePaths st.dirs [] rest :=
                (ih ⟨st.tracks ++ [st.cur], emptyTrack, st.dirs⟩ fin hwrest hd h').2
              refine ⟨?_, ?_⟩
              · rw [hlen, countSongEnd_cons, if_pos h5]
                simp only [List.length_append, List.length_singleton]
                omega
              · rw [hmap, specParsePaths_cons, if_neg h1, if_neg h2,
                  if_neg h4, if_pos h5]
                simp [List.map_append]
            · have hstep : parseStep st l = .ok st := by
                simp only [parseStep]
                rw [if_neg h1, if_neg h2, if_neg h3, if_neg h4, if_neg h5]
              rw [hstep] at h
              have h' : parseLines st rest = .ok fin := h
              have hlen : fin.tracks.length = st.tracks.length + countSongEnd rest :=
                (ih _ fin hwrest hd h').1
              have hmap : fin.tracks.map Track.Path = st.tracks.map Track.Path ++
                  specParsePaths st.dirs st.cur.Path rest :=
                (ih _ fin hwrest hd h').2
              refine ⟨?_, ?_⟩
              · rw [hlen, countSongEnd_cons, if_neg h5]
                omega
              · rw [hmap, specParsePaths_cons, if_neg h1, if_neg h2,
                  if_neg h4, if_neg h5]

/-- Claim C2 (confirmed): on a valid nested dump — all `directory` and
`song_begin` names nonempty, slash-free and not `.` or `..`, and the parse
succeeding — the parser returns exactly one track per `song_end`
directive, and each track's path is the slash-joined stack of directory
names open at its `song_begin` followed by its filename, as computed by
the specification-side `specParsePaths`. -/
theorem c2_parser_paths (lines : List (List Char)) (ts : List Track)
    (hw : ∀ l ∈ lines,
      ((keyval l).1 = "directory".toList → wfName (keyval l).2) ∧
      ((keyval l).1 = "song_begin".toList → wfName (keyval l).2))
    (hok : parse lines = .ok ts) :
    ts.length = countSongEnd lines ∧
      ts.map Track.Path = specParsePaths [] [] lines := by
  unfold parse at hok
  cases hfin : parseLines initState lines with
  | error e =>
    rw [hfin] at hok
    simp at hok
  | ok fin =>
    rw [hfin] at hok
    injection hok with hok
    subst hok
    have hlen : fin.tracks.length = ([] : List Track).length + countSongEnd lines :=
      (parseLines_paths lines initState fin hw (by intro d hd; simp [initState] at hd) hfin).1
    have hmap : fin.tracks.map Track.Path = ([] : List Track).map Track.Path ++
        specParsePaths [] [] lines :=
      (parseLines_paths lines initState fin hw (by intro d hd; simp [initState] at hd) hfin).2
    constructor
    · simpa using hlen
    · simpa using hmap

/-- Claim C2 witness: the nested scenario of one directory with one track
parses to one track with the expected joined path. -/
theorem c2_witness :
    ([⟨[], "Sia".toList, [], "chandelier.mp3".toList, [], "Music/chandelier.mp3".toList, "(03:35)".toList, []⟩] : List Track).length =
      countSongEnd ["directory: Music".toList, "song_begin: chandelier.mp3".toList, "Artist: Sia".toList, "Time: 215".toList, "song_end".toList, "end".toList] ∧
    ([⟨[], "Sia".toList, [], "chandelier.mp3".toList, [], "Music/chandelier.mp3".toList, "(03:35)".toList, []⟩] : List Track).map Track.Path =
      specParsePaths [] [] ["directory: Music".toList, "song_begin: chandelier.mp3".toList, "Artist: Sia".toList, "Time: 215".toList, "song_end".toList, "end".toList] :=
  c2_parser_paths
    ["directory: Music".toList, "song_begin: chandelier.mp3".toList, "Artist: Sia".toList, "Time: 215".toList, "song_end".toList, "end".toList]
    [⟨[], "Sia".toList, [], "chandelier.mp3".toList, [], "Music/chandelier.mp3".toList, "(03:35)".toList, []⟩]
    (by decide) (by rfl)
